import Mathlib

/-!
Verification of the bracket/quote boundary scanner of
`vscode-extended-actions` (`src/exitSurrounding.ts`).

The text buffer is embedded as a `List Char` addressed by linear offsets.
The scanner's loops are embedded as fuel-indexed recursive functions
returning `Option Int`: `none` means the fuel ran out, `some r` is the
value the loop returns (`-1` is the source's not-found sentinel).  The
public wrappers supply fuel that provably suffices (see the termination
theorems), so the wrappers compute exactly what the source loops compute.
-/

/-! ## Characters used by the scanner -/

def nulChar : Char := Char.ofNat 0

def nlChar : Char := Char.ofNat 10

def bslash : Char := Char.ofNat 92

def lparen : Char := Char.ofNat 40

def rparen : Char := Char.ofNat 41

def lbrack : Char := Char.ofNat 91

def rbrack : Char := Char.ofNat 93

def lbrace : Char := Char.ofNat 123

def rbrace : Char := Char.ofNat 125

def dquote : Char := Char.ofNat 34

def squote : Char := Char.ofNat 39

def bquote : Char := Char.ofNat 96

/-! ## Positions and selections -/

/-- A (line, column) coordinate, mirroring `vscode.Position`. -/
structure Pos where
  line : Nat
  character : Nat
  deriving DecidableEq, Repr

/-- A selection, mirroring `vscode.Selection` (anchor and active point).
The scanner only reads `active` and only produces collapsed selections. -/
structure Selection where
  anchor : Pos
  active : Pos
  deriving DecidableEq, Repr

/-- Single-character read at a linear offset (the source's
`document.getText` of the one-character range at `pos`).  Out-of-range
reads yield the NUL character, which is classified as nothing. -/
def charAt (doc : List Char) (pos : Int) : Char :=
  if pos < 0 then nulChar else doc.getD pos.toNat nulChar

/-- Linear offset of the document end: the source computes the offset of
the end of the last line, which equals the total character count. -/
def docEnd (doc : List Char) : Int :=
  (doc.length : Int)

/-! ## Offset ↔ (line, column) conversion

Modelled from the spec: the host editor's text-buffer abstraction
(spec sections 3 and 6) supplies "conversion between a linear character
offset and a (line, column) coordinate" (`offsetAt` / `positionAt` of the
editor document); the repository calls the host API for it.  Lines are
separated by the newline character. -/

/-- (line, column) of a linear offset; offsets past the end clamp to the
end of the document. -/
def posLineCol : List Char → Nat → Nat × Nat
  | _, 0 => (0, 0)
  | [], _ + 1 => (0, 0)
  | c :: rest, o + 1 =>
    if c = nlChar then ((posLineCol rest o).1 + 1, (posLineCol rest o).2)
    else if (posLineCol rest o).1 = 0 then (0, (posLineCol rest o).2 + 1)
    else posLineCol rest o

/-- Modelled from the spec: the host editor's `positionAt`. -/
def positionAt (doc : List Char) (o : Nat) : Pos :=
  ⟨(posLineCol doc o).1, (posLineCol doc o).2⟩

/-- Linear offset of a (line, column) coordinate, clamping the column to
the line length and overlong line numbers to the document end. -/
def offsetAux : List Char → Nat → Nat → Nat
  | [], _, _ => 0
  | c :: rest, l, ch =>
    if l = 0 then
      if ch = 0 then 0
      else if c = nlChar then 0
      else 1 + offsetAux rest 0 (ch - 1)
    else if c = nlChar then 1 + offsetAux rest (l - 1) ch
    else 1 + offsetAux rest l ch

/-- Modelled from the spec: the host editor's `offsetAt`. -/
def offsetAt (doc : List Char) (p : Pos) : Nat :=
  offsetAux doc p.line p.character

/-! ## Character classification (`isOpeningChar`, `isClosingChar`,
`getOpeningChar`, `getClosingChar` of the source) -/

def isOpeningChar (c : Char) : Bool :=
  [lparen, lbrack, lbrace, dquote, squote, bquote].contains c

def isClosingChar (c : Char) : Bool :=
  [rparen, rbrack, rbrace, dquote, squote, bquote].contains c

/-- The source's `pairs` table keyed by closing characters; unknown keys
give `null`, embedded as `none`. -/
def getOpeningChar (c : Char) : Option Char :=
  if c = rparen then some lparen
  else if c = rbrack then some lbrack
  else if c = rbrace then some lbrace
  else if c = dquote then some dquote
  else if c = squote then some squote
  else if c = bquote then some bquote
  else none

/-- The source's `pairs` table keyed by opening characters. -/
def getClosingChar (c : Char) : Option Char :=
  if c = lparen then some rparen
  else if c = lbrack then some rbrack
  else if c = lbrace then some rbrace
  else if c = dquote then some dquote
  else if c = squote then some squote
  else if c = bquote then some bquote
  else none

/-! ## `findMatchingClose` (forward partner search) -/

/-- The quote loop of `findMatchingClose` (open char equals close char):
scan forward, skip `\x` pairs, return the first occurrence of the quote. -/
def matchCloseQuoteGo (doc : List Char) (dEnd : Int) (q : Char) :
    Nat → Int → Option Int
  | 0, _ => none
  | fuel + 1, pos =>
    if pos < dEnd then
      if charAt doc pos = bslash ∧ pos + 1 < dEnd then
        matchCloseQuoteGo doc dEnd q fuel (pos + 2)
      else if charAt doc pos = q then
        some pos
      else
        matchCloseQuoteGo doc dEnd q fuel (pos + 1)
    else
      some (-1)

/-- The bracket loop of `findMatchingClose`: scan forward with a depth
counter, incrementing on the open char, decrementing on the close char,
returning the position where the depth reaches 0. -/
def matchCloseBracketGo (doc : List Char) (dEnd : Int) (o cl : Char) :
    Nat → Int → Int → Option Int
  | 0, _, _ => none
  | fuel + 1, depth, pos =>
    if pos < dEnd then
      if charAt doc pos = bslash ∧ pos + 1 < dEnd then
        matchCloseBracketGo doc dEnd o cl fuel depth (pos + 2)
      else if charAt doc pos = o then
        matchCloseBracketGo doc dEnd o cl fuel (depth + 1) (pos + 1)
      else if charAt doc pos = cl then
        if depth - 1 = 0 then some pos
        else matchCloseBracketGo doc dEnd o cl fuel (depth - 1) (pos + 1)
      else
        matchCloseBracketGo doc dEnd o cl fuel depth (pos + 1)
    else
      some (-1)

/-- `findMatchingClose`: partner of the opening character at `openPos`,
searching from `openPos + 1` with depth 1; `-1` when unmatched. -/
def findMatchingClose (doc : List Char) (openPos : Int) (openChar : Char) :
    Int :=
  match getClosingChar openChar with
  | none => -1
  | some closeChar =>
    if openChar = closeChar then
      (matchCloseQuoteGo doc (docEnd doc) closeChar
        ((docEnd doc - (openPos + 1)).toNat + 1) (openPos + 1)).getD (-1)
    else
      (matchCloseBracketGo doc (docEnd doc) openChar closeChar
        ((docEnd doc - (openPos + 1)).toNat + 1) 1 (openPos + 1)).getD (-1)

/-! ## `findMatchingOpen` (backward partner search) -/

/-- The quote loop of `findMatchingOpen`: scan backward, treating a
candidate preceded by a backslash as escaped (skip two back), returning
the first occurrence of the quote. -/
def matchOpenQuoteGo (doc : List Char) (q : Char) :
    Nat → Int → Option Int
  | 0, _ => none
  | fuel + 1, pos =>
    if 0 ≤ pos then
      if 0 < pos ∧ charAt doc (pos - 1) = bslash then
        matchOpenQuoteGo doc q fuel (pos - 2)
      else if charAt doc pos = q then
        some pos
      else
        matchOpenQuoteGo doc q fuel (pos - 1)
    else
      some (-1)

/-- The bracket loop of `findMatchingOpen`: scan backward with a depth
counter, incrementing on the close char, decrementing on the open char. -/
def matchOpenBracketGo (doc : List Char) (o cl : Char) :
    Nat → Int → Int → Option Int
  | 0, _, _ => none
  | fuel + 1, depth, pos =>
    if 0 ≤ pos then
      if 0 < pos ∧ charAt doc (pos - 1) = bslash then
        matchOpenBracketGo doc o cl fuel depth (pos - 2)
      else if charAt doc pos = cl then
        matchOpenBracketGo doc o cl fuel (depth + 1) (pos - 1)
      else if charAt doc pos = o then
        if depth - 1 = 0 then some pos
        else matchOpenBracketGo doc o cl fuel (depth - 1) (pos - 1)
      else
        matchOpenBracketGo doc o cl fuel depth (pos - 1)
    else
      some (-1)

/-- `findMatchingOpen`: partner of the closing character at `closePos`,
searching backward from `closePos - 1` with depth 1; `-1` when unmatched
(also when `closeChar` is not a key of the opening-char table). -/
def findMatchingOpen (doc : List Char) (closePos : Int) (closeChar : Char) :
    Int :=
  match getOpeningChar closeChar with
  | none => -1
  | some openChar =>
    if openChar = closeChar then
      (matchOpenQuoteGo doc openChar (closePos.toNat + 1)
        (closePos - 1)).getD (-1)
    else
      (matchOpenBracketGo doc openChar closeChar (closePos.toNat + 1) 1
        (closePos - 1)).getD (-1)

/-! ## The outer scans -/

/-- Loop of `findNextClosingPosition`: scan forward from `pos`; skip
escape pairs; return the first closing character; on an opening character
jump past its matching close when one exists. -/
def findNextClosingGo (doc : List Char) (dEnd : Int) :
    Nat → Int → Option Int
  | 0, _ => none
  | fuel + 1, pos =>
    if pos < dEnd then
      if charAt doc pos = bslash ∧ pos + 1 < dEnd then
        findNextClosingGo doc dEnd fuel (pos + 2)
      else if isClosingChar (charAt doc pos) then
        some pos
      else if isOpeningChar (charAt doc pos) ∧
          0 ≤ findMatchingClose doc pos (charAt doc pos) then
        findNextClosingGo doc dEnd fuel
          (findMatchingClose doc pos (charAt doc pos) + 1)
      else
        findNextClosingGo doc dEnd fuel (pos + 1)
    else
      some (-1)

/-- `findNextClosingPosition`: offset of the next closing bracket/quote at
or after `startOffset`, or `-1`. -/
def findNextClosingPosition (doc : List Char) (startOffset : Int) : Int :=
  (findNextClosingGo doc (docEnd doc)
    ((docEnd doc - startOffset).toNat + 1) startOffset).getD (-1)

/-- Loop of `findPreviousClosingPosition`: scan backward from `pos`; a
position whose predecessor is a backslash is escaped (skip two back);
return the first closing character; on an opening character jump before
its matching open when one exists. -/
def findPrevClosingGo (doc : List Char) :
    Nat → Int → Option Int
  | 0, _ => none
  | fuel + 1, pos =>
    if 0 ≤ pos then
      if 0 < pos ∧ charAt doc (pos - 1) = bslash then
        findPrevClosingGo doc fuel (pos - 2)
      else if isClosingChar (charAt doc pos) then
        some pos
      else if isOpeningChar (charAt doc pos) ∧
          0 ≤ findMatchingOpen doc pos (charAt doc pos) then
        findPrevClosingGo doc fuel
          (findMatchingOpen doc pos (charAt doc pos) - 1)
      else
        findPrevClosingGo doc fuel (pos - 1)
    else
      some (-1)

/-- `findPreviousClosingPosition`: offset of the previous closing
bracket/quote strictly before `startOffset`, or `-1`. -/
def findPreviousClosingPosition (doc : List Char) (startOffset : Int) :
    Int :=
  (findPrevClosingGo doc (startOffset.toNat + 1) (startOffset - 1)).getD (-1)

/-! ## The public operations -/

/-- Body of the per-selection loop of `computeExitSelections`. -/
def exitSelectionFor (doc : List Char) (sel : Selection) : Selection :=
  let cursorOffset : Int := (offsetAt doc sel.active : Int)
  let closingOffset := findNextClosingPosition doc cursorOffset
  if closingOffset < 0 then sel
  else
    let closingPos := positionAt doc closingOffset.toNat
    let newPos : Pos := ⟨closingPos.line, closingPos.character + 1⟩
    ⟨newPos, newPos⟩

/-- `computeExitSelections`: one output selection per input selection. -/
def computeExitSelections (doc : List Char) (sels : List Selection) :
    List Selection :=
  sels.map (exitSelectionFor doc)

/-- Body of the per-selection loop of `computeEnterSelections`. -/
def enterSelectionFor (doc : List Char) (sel : Selection) : Selection :=
  let cursorOffset : Int := (offsetAt doc sel.active : Int)
  let closingOffset := findPreviousClosingPosition doc cursorOffset
  if closingOffset < 0 then sel
  else
    let newPos := positionAt doc closingOffset.toNat
    ⟨newPos, newPos⟩

/-- `computeEnterSelections`: one output selection per input selection. -/
def computeEnterSelections (doc : List Char) (sels : List Selection) :
    List Selection :=
  sels.map (enterSelectionFor doc)

/-! ## Concrete documents used in the examples -/

/-- The text of the spec's example `foo(hello)`. -/
def fooHelloDoc : List Char :=
  ['f', 'o', 'o', lparen, 'h', 'e', 'l', 'l', 'o', rparen]

/-- The text of the spec's example `foo(bar[baz])`. -/
def fooBarBazDoc : List Char :=
  ['f', 'o', 'o', lparen, 'b', 'a', 'r', lbrack, 'b', 'a', 'z', rbrack,
    rparen]

/-- The text of the spec's escape example `str"hel\"lo"`. -/
def strHelLoDoc : List Char :=
  ['s', 't', 'r', dquote, 'h', 'e', 'l', bslash, dquote, 'l', 'o', dquote]

/-- The text `hello world` (no delimiter anywhere). -/
def helloWorldDoc : List Char :=
  ['h', 'e', 'l', 'l', 'o', ' ', 'w', 'o', 'r', 'l', 'd']

/-- The three-character text backslash, backslash, double quote. -/
def bbqDoc : List Char :=
  [bslash, bslash, dquote]

/-- The text `"a"b"` (three double quotes). -/
def quoteNestDoc : List Char :=
  [dquote, 'a', dquote, 'b', dquote]

/-- The text `{(a)b}`: the pair `(a)` sits nested inside the braces. -/
def nestedPairDoc : List Char :=
  [lbrace, lparen, 'a', rparen, 'b', rbrace]

/-! ## Character classification facts -/

theorem isClosingChar_cases {c : Char} (h : isClosingChar c = true) :
    c = rparen ∨ c = rbrack ∨ c = rbrace ∨ c = dquote ∨ c = squote ∨
      c = bquote := by
  simp [isClosingChar] at h
  exact h

theorem isOpeningChar_cases {c : Char} (h : isOpeningChar c = true) :
    c = lparen ∨ c = lbrack ∨ c = lbrace ∨ c = dquote ∨ c = squote ∨
      c = bquote := by
  simp [isOpeningChar] at h
  exact h

theorem isClosingChar_ne_nl {c : Char} (h : isClosingChar c = true) :
    c ≠ nlChar := by
  rcases isClosingChar_cases h with rfl | rfl | rfl | rfl | rfl | rfl <;>
    decide

theorem isClosingChar_ne_bslash {c : Char} (h : isClosingChar c = true) :
    c ≠ bslash := by
  rcases isClosingChar_cases h with rfl | rfl | rfl | rfl | rfl | rfl <;>
    decide

theorem isClosingChar_charAt_bounds {doc : List Char} {pos : Int}
    (h : isClosingChar (charAt doc pos) = true) :
    0 ≤ pos ∧ pos < docEnd doc := by
  unfold charAt at h
  by_cases h0 : pos < 0
  · rw [if_pos h0] at h
    exact absurd h (by decide)
  · rw [if_neg h0] at h
    refine ⟨by omega, ?_⟩
    by_cases h1 : pos.toNat < doc.length
    · unfold docEnd
      omega
    · rw [List.getD_eq_default _ _ (by omega)] at h
      exact absurd h (by decide)

/-! ## Facts about the offset ↔ position conversion -/

theorem offsetAux_le_length :
    ∀ (doc : List Char) (l ch : Nat), offsetAux doc l ch ≤ doc.length := by
  intro doc
  induction doc with
  | nil =>
    intro l ch
    simp [offsetAux]
  | cons c rest ih =>
    intro l ch
    simp only [offsetAux, List.length_cons]
    split_ifs
    · omega
    · omega
    · have := ih 0 (ch - 1)
      omega
    · have := ih (l - 1) ch
      omega
    · have := ih l ch
      omega

theorem offsetAt_le_length (doc : List Char) (p : Pos) :
    offsetAt doc p ≤ doc.length :=
  offsetAux_le_length doc p.line p.character

theorem offsetAux_posLineCol :
    ∀ (doc : List Char) (o : Nat), o ≤ doc.length →
      offsetAux doc (posLineCol doc o).1 (posLineCol doc o).2 = o := by
  intro doc
  induction doc with
  | nil =>
    intro o ho
    have h0 : o = 0 := by simpa using ho
    subst h0
    rfl
  | cons c rest ih =>
    intro o ho
    cases o with
    | zero => rfl
    | succ o' =>
      have ho' : o' ≤ rest.length := by simpa using ho
      have ihh := ih o' ho'
      rcases hq : posLineCol rest o' with ⟨l, ch⟩
      rw [hq] at ihh
      have ihh' : offsetAux rest l ch = o' := ihh
      simp only [posLineCol, hq]
      by_cases hc : c = nlChar
      · rw [if_pos hc]
        show offsetAux (c :: rest) (l + 1) ch = o' + 1
        simp [offsetAux, hc]
        omega
      · rw [if_neg hc]
        cases l with
        | zero =>
          rw [if_pos rfl]
          show offsetAux (c :: rest) 0 (ch + 1) = o' + 1
          simp [offsetAux, hc]
          omega
        | succ l' =>
          rw [if_neg (by simp)]
          show offsetAux (c :: rest) (l' + 1) ch = o' + 1
          simp [offsetAux, hc]
          omega

theorem offsetAt_positionAt (doc : List Char) (o : Nat)
    (ho : o ≤ doc.length) : offsetAt doc (positionAt doc o) = o :=
  offsetAux_posLineCol doc o ho

theorem posLineCol_succ :
    ∀ (doc : List Char) (o : Nat), o < doc.length →
      doc.getD o nulChar ≠ nlChar →
      posLineCol doc (o + 1) =
        ((posLineCol doc o).1, (posLineCol doc o).2 + 1) := by
  intro doc
  induction doc with
  | nil =>
    intro o ho _
    simp at ho
  | cons c rest ih =>
    intro o ho hnl
    cases o with
    | zero =>
      have hc : c ≠ nlChar := by simpa using hnl
      simp [posLineCol, if_neg hc]
    | succ o' =>
      have ho' : o' < rest.length := by simpa using ho
      have hnl' : rest.getD o' nulChar ≠ nlChar := by simpa using hnl
      have ihh := ih o' ho' hnl'
      simp only [posLineCol, ihh]
      by_cases hc : c = nlChar
      · simp [if_pos hc]
      · simp only [if_neg hc]
        by_cases hl : (posLineCol rest o').1 = 0
        · simp [if_pos hl, hl]
        · simp [if_neg hl, hl]

/-! ## Forward scan: result bounds and termination -/

theorem matchCloseQuoteGo_spec (doc : List Char) (dEnd : Int) (q : Char) :
    ∀ (fuel : Nat) (pos r : Int),
      matchCloseQuoteGo doc dEnd q fuel pos = some r →
      r = -1 ∨ (pos ≤ r ∧ r < dEnd ∧ charAt doc r = q) := by
  intro fuel
  induction fuel with
  | zero =>
    intro pos r h
    simp [matchCloseQuoteGo] at h
  | succ n ih =>
    intro pos r h
    simp only [matchCloseQuoteGo] at h
    by_cases h1 : pos < dEnd
    · rw [if_pos h1] at h
      by_cases h2 : charAt doc pos = bslash ∧ pos + 1 < dEnd
      · rw [if_pos h2] at h
        rcases ih _ _ h with hr | ⟨hr1, hr2, hr3⟩
        · exact Or.inl hr
        · exact Or.inr ⟨by omega, hr2, hr3⟩
      · rw [if_neg h2] at h
        by_cases h3 : charAt doc pos = q
        · rw [if_pos h3] at h
          injection h with h'
          subst h'
          exact Or.inr ⟨le_refl _, h1, h3⟩
        · rw [if_neg h3] at h
          rcases ih _ _ h with hr | ⟨hr1, hr2, hr3⟩
          · exact Or.inl hr
          · exact Or.inr ⟨by omega, hr2, hr3⟩
    · rw [if_neg h1] at h
      injection h with h'
      subst h'
      exact Or.inl rfl

theorem matchCloseQuoteGo_isSome (doc : List Char) (dEnd : Int) (q : Char) :
    ∀ (fuel : Nat) (pos : Int), (dEnd - pos).toNat < fuel →
      (matchCloseQuoteGo doc dEnd q fuel pos).isSome = true := by
  intro fuel
  induction fuel with
  | zero =>
    intro pos h
    omega
  | succ n ih =>
    intro pos h
    simp only [matchCloseQuoteGo]
    by_cases h1 : pos < dEnd
    · rw [if_pos h1]
      by_cases h2 : charAt doc pos = bslash ∧ pos + 1 < dEnd
      · rw [if_pos h2]
        exact ih _ (by omega)
      · rw [if_neg h2]
        by_cases h3 : charAt doc pos = q
        · rw [if_pos h3]
          rfl
        · rw [if_neg h3]
          exact ih _ (by omega)
    · rw [if_neg h1]
      rfl

theorem matchCloseBracketGo_spec (doc : List Char) (dEnd : Int)
    (o cl : Char) :
    ∀ (fuel : Nat) (depth pos r : Int),
      matchCloseBracketGo doc dEnd o cl fuel depth pos = some r →
      r = -1 ∨ (pos ≤ r ∧ r < dEnd ∧ charAt doc r = cl) := by
  intro fuel
  induction fuel with
  | zero =>
    intro depth pos r h
    simp [matchCloseBracketGo] at h
  | succ n ih =>
    intro depth pos r h
    simp only [matchCloseBracketGo] at h
    by_cases h1 : pos < dEnd
    · rw [if_pos h1] at h
      by_cases h2 : charAt doc pos = bslash ∧ pos + 1 < dEnd
      · rw [if_pos h2] at h
        rcases ih _ _ _ h with hr | ⟨hr1, hr2, hr3⟩
        · exact Or.inl hr
        · exact Or.inr ⟨by omega, hr2, hr3⟩
      · rw [if_neg h2] at h
        by_cases h3 : charAt doc pos = o
        · rw [if_pos h3] at h
          rcases ih _ _ _ h with hr | ⟨hr1, hr2, hr3⟩
          · exact Or.inl hr
          · exact Or.inr ⟨by omega, hr2, hr3⟩
        · rw [if_neg h3] at h
          by_cases h4 : charAt doc pos = cl
          · rw [if_pos h4] at h
            by_cases h5 : depth - 1 = 0
            · rw [if_pos h5] at h
              injection h with h'
              subst h'
              exact Or.inr ⟨le_refl _, h1, h4⟩
            · rw [if_neg h5] at h
              rcases ih _ _ _ h with hr | ⟨hr1, hr2, hr3⟩
              · exact Or.inl hr
              · exact Or.inr ⟨by omega, hr2, hr3⟩
          · rw [if_neg h4] at h
            rcases ih _ _ _ h with hr | ⟨hr1, hr2, hr3⟩
            · exact Or.inl hr
            · exact Or.inr ⟨by omega, hr2, hr3⟩
    · rw [if_neg h1] at h
      injection h with h'
      subst h'
      exact Or.inl rfl

theorem matchCloseBracketGo_isSome (doc : List Char) (dEnd : Int)
    (o cl : Char) :
    ∀ (fuel : Nat) (depth pos : Int), (dEnd - pos).toNat < fuel →
      (matchCloseBracketGo doc dEnd o cl fuel depth pos).isSome = true := by
  intro fuel
  induction fuel with
  | zero =>
    intro depth pos h
    omega
  | succ n ih =>
    intro depth pos h
    simp only [matchCloseBracketGo]
    by_cases h1 : pos < dEnd
    · rw [if_pos h1]
      by_cases h2 : charAt doc pos = bslash ∧ pos + 1 < dEnd
      · rw [if_pos h2]
        exact ih _ _ (by omega)
      · rw [if_neg h2]
        by_cases h3 : charAt doc pos = o
        · rw [if_pos h3]
          exact ih _ _ (by omega)
        · rw [if_neg h3]
          by_cases h4 : charAt doc pos = cl
          · rw [if_pos h4]
            by_cases h5 : depth - 1 = 0
            · rw [if_pos h5]
              rfl
            · rw [if_neg h5]
              exact ih _ _ (by omega)
          · rw [if_neg h4]
            exact ih _ _ (by omega)
    · rw [if_neg h1]
      rfl

theorem findMatchingClose_spec (doc : List Char) (p : Int) (c : Char) :
    findMatchingClose doc p c = -1 ∨
      (p + 1 ≤ findMatchingClose doc p c ∧
        findMatchingClose doc p c < docEnd doc) := by
  cases hg : getClosingChar c with
  | none =>
    simp only [findMatchingClose, hg]
    exact Or.inl trivial
  | some cl =>
    simp only [findMatchingClose, hg]
    by_cases he : c = cl
    · rw [if_pos he]
      have hs := matchCloseQuoteGo_isSome doc (docEnd doc) cl
        ((docEnd doc - (p + 1)).toNat + 1) (p + 1) (by omega)
      rcases Option.isSome_iff_exists.mp hs with ⟨r, hr⟩
      rw [hr, Option.getD_some]
      rcases matchCloseQuoteGo_spec doc (docEnd doc) cl _ _ _ hr with
        h | ⟨h1, h2, _⟩
      · exact Or.inl h
      · exact Or.inr ⟨h1, h2⟩
    · rw [if_neg he]
      have hs := matchCloseBracketGo_isSome doc (docEnd doc) c cl
        ((docEnd doc - (p + 1)).toNat + 1) 1 (p + 1) (by omega)
      rcases Option.isSome_iff_exists.mp hs with ⟨r, hr⟩
      rw [hr, Option.getD_some]
      rcases matchCloseBracketGo_spec doc (docEnd doc) c cl _ _ _ _ hr with
        h | ⟨h1, h2, _⟩
      · exact Or.inl h
      · exact Or.inr ⟨h1, h2⟩

theorem findNextClosingGo_spec (doc : List Char) :
    ∀ (fuel : Nat) (pos r : Int),
      findNextClosingGo doc (docEnd doc) fuel pos = some r →
      r = -1 ∨
        (pos ≤ r ∧ r < docEnd doc ∧ isClosingChar (charAt doc r) = true) := by
  intro fuel
  induction fuel with
  | zero =>
    intro pos r h
    simp [findNextClosingGo] at h
  | succ n ih =>
    intro pos r h
    simp only [findNextClosingGo] at h
    by_cases h1 : pos < docEnd doc
    · rw [if_pos h1] at h
      by_cases h2 : charAt doc pos = bslash ∧ pos + 1 < docEnd doc
      · rw [if_pos h2] at h
        rcases ih _ _ h with hr | ⟨hr1, hr2, hr3⟩
        · exact Or.inl hr
        · exact Or.inr ⟨by omega, hr2, hr3⟩
      · rw [if_neg h2] at h
        by_cases h3 : isClosingChar (charAt doc pos) = true
        · rw [if_pos h3] at h
          injection h with h'
          subst h'
          exact Or.inr ⟨le_refl _, h1, h3⟩
        · rw [if_neg h3] at h
          by_cases h4 : isOpeningChar (charAt doc pos) = true ∧
              0 ≤ findMatchingClose doc pos (charAt doc pos)
          · rw [if_pos h4] at h
            rcases findMatchingClose_spec doc pos (charAt doc pos) with
              hm | ⟨hm1, hm2⟩
            · omega
            · rcases ih _ _ h with hr | ⟨hr1, hr2, hr3⟩
              · exact Or.inl hr
              · exact Or.inr ⟨by omega, hr2, hr3⟩
          · rw [if_neg h4] at h
            rcases ih _ _ h with hr | ⟨hr1, hr2, hr3⟩
            · exact Or.inl hr
            · exact Or.inr ⟨by omega, hr2, hr3⟩
    · rw [if_neg h1] at h
      injection h with h'
      subst h'
      exact Or.inl rfl

theorem findNextClosingGo_isSome (doc : List Char) :
    ∀ (fuel : Nat) (pos : Int), (docEnd doc - pos).toNat < fuel →
      (findNextClosingGo doc (docEnd doc) fuel pos).isSome = true := by
  intro fuel
  induction fuel with
  | zero =>
    intro pos h
    omega
  | succ n ih =>
    intro pos h
    simp only [findNextClosingGo]
    by_cases h1 : pos < docEnd doc
    · rw [if_pos h1]
      by_cases h2 : charAt doc pos = bslash ∧ pos + 1 < docEnd doc
      · rw [if_pos h2]
        exact ih _ (by omega)
      · rw [if_neg h2]
        by_cases h3 : isClosingChar (charAt doc pos) = true
        · rw [if_pos h3]
          rfl
        · rw [if_neg h3]
          by_cases h4 : isOpeningChar (charAt doc pos) = true ∧
              0 ≤ findMatchingClose doc pos (charAt doc pos)
          · rw [if_pos h4]
            rcases findMatchingClose_spec doc pos (charAt doc pos) with
              hm | ⟨hm1, hm2⟩
            · omega
            · exact ih _ (by omega)
          · rw [if_neg h4]
            exact ih _ (by omega)
    · rw [if_neg h1]
      rfl

theorem findNextClosingPosition_spec (doc : List Char) (s : Int) :
    findNextClosingPosition doc s = -1 ∨
      (s ≤ findNextClosingPosition doc s ∧
        findNextClosingPosition doc s < docEnd doc ∧
        isClosingChar (charAt doc (findNextClosingPosition doc s)) = true) := by
  unfold findNextClosingPosition
  have hs := findNextClosingGo_isSome doc ((docEnd doc - s).toNat + 1) s
    (by omega)
  rcases Option.isSome_iff_exists.mp hs with ⟨r, hr⟩
  rw [hr, Option.getD_some]
  exact findNextClosingGo_spec doc _ s r hr

/-! ## Backward scan: result bounds and termination -/

theorem matchOpenQuoteGo_spec (doc : List Char) (q : Char) :
    ∀ (fuel : Nat) (pos r : Int),
      matchOpenQuoteGo doc q fuel pos = some r →
      r = -1 ∨ (0 ≤ r ∧ r ≤ pos ∧ charAt doc r = q) := by
  intro fuel
  induction fuel with
  | zero =>
    intro pos r h
    simp [matchOpenQuoteGo] at h
  | succ n ih =>
    intro pos r h
    simp only [matchOpenQuoteGo] at h
    by_cases h1 : 0 ≤ pos
    · rw [if_pos h1] at h
      by_cases h2 : 0 < pos ∧ charAt doc (pos - 1) = bslash
      · rw [if_pos h2] at h
        rcases ih _ _ h with hr | ⟨hr1, hr2, hr3⟩
        · exact Or.inl hr
        · exact Or.inr ⟨hr1, by omega, hr3⟩
      · rw [if_neg h2] at h
        by_cases h3 : charAt doc pos = q
        · rw [if_pos h3] at h
          injection h with h'
          subst h'
          exact Or.inr ⟨h1, le_refl _, h3⟩
        · rw [if_neg h3] at h
          rcases ih _ _ h with hr | ⟨hr1, hr2, hr3⟩
          · exact Or.inl hr
          · exact Or.inr ⟨hr1, by omega, hr3⟩
    · rw [if_neg h1] at h
      injection h with h'
      subst h'
      exact Or.inl rfl

theorem matchOpenQuoteGo_isSome (doc : List Char) (q : Char) :
    ∀ (fuel : Nat) (pos : Int), (pos + 1).toNat < fuel →
      (matchOpenQuoteGo doc q fuel pos).isSome = true := by
  intro fuel
  induction fuel with
  | zero =>
    intro pos h
    omega
  | succ n ih =>
    intro pos h
    simp only [matchOpenQuoteGo]
    by_cases h1 : 0 ≤ pos
    · rw [if_pos h1]
      by_cases h2 : 0 < pos ∧ charAt doc (pos - 1) = bslash
      · rw [if_pos h2]
        exact ih _ (by omega)
      · rw [if_neg h2]
        by_cases h3 : charAt doc pos = q
        · rw [if_pos h3]
          rfl
        · rw [if_neg h3]
          exact ih _ (by omega)
    · rw [if_neg h1]
      rfl

theorem matchOpenBracketGo_spec (doc : List Char) (o cl : Char) :
    ∀ (fuel : Nat) (depth pos r : Int),
      matchOpenBracketGo doc o cl fuel depth pos = some r →
      r = -1 ∨ (0 ≤ r ∧ r ≤ pos ∧ charAt doc r = o) := by
  intro fuel
  induction fuel with
  | zero =>
    intro depth pos r h
    simp [matchOpenBracketGo] at h
  | succ n ih =>
    intro depth pos r h
    simp only [matchOpenBracketGo] at h
    by_cases h1 : 0 ≤ pos
    · rw [if_pos h1] at h
      by_cases h2 : 0 < pos ∧ charAt doc (pos - 1) = bslash
      · rw [if_pos h2] at h
        rcases ih _ _ _ h with hr | ⟨hr1, hr2, hr3⟩
        · exact Or.inl hr
        · exact Or.inr ⟨hr1, by omega, hr3⟩
      · rw [if_neg h2] at h
        by_cases h3 : charAt doc pos = cl
        · rw [if_pos h3] at h
          rcases ih _ _ _ h with hr | ⟨hr1, hr2, hr3⟩
          · exact Or.inl hr
          · exact Or.inr ⟨hr1, by omega, hr3⟩
        · rw [if_neg h3] at h
          by_cases h4 : charAt doc pos = o
          · rw [if_pos h4] at h
            by_cases h5 : depth - 1 = 0
            · rw [if_pos h5] at h
              injection h with h'
              subst h'
              exact Or.inr ⟨h1, le_refl _, h4⟩
            · rw [if_neg h5] at h
              rcases ih _ _ _ h with hr | ⟨hr1, hr2, hr3⟩
              · exact Or.inl hr
              · exact Or.inr ⟨hr1, by omega, hr3⟩
          · rw [if_neg h4] at h
            rcases ih _ _ _ h with hr | ⟨hr1, hr2, hr3⟩
            · exact Or.inl hr
            · exact Or.inr ⟨hr1, by omega, hr3⟩
    · rw [if_neg h1] at h
      injection h with h'
      subst h'
      exact Or.inl rfl

theorem matchOpenBracketGo_isSome (doc : List Char) (o cl : Char) :
    ∀ (fuel : Nat) (depth pos : Int), (pos + 1).toNat < fuel →
      (matchOpenBracketGo doc o cl fuel depth pos).isSome = true := by
  intro fuel
  induction fuel with
  | zero =>
    intro depth pos h
    omega
  | succ n ih =>
    intro depth pos h
    simp only [matchOpenBracketGo]
    by_cases h1 : 0 ≤ pos
    · rw [if_pos h1]
      by_cases h2 : 0 < pos ∧ charAt doc (pos - 1) = bslash
      · rw [if_pos h2]
        exact ih _ _ (by omega)
      · rw [if_neg h2]
        by_cases h3 : charAt doc pos = cl
        · rw [if_pos h3]
          exact ih _ _ (by omega)
        · rw [if_neg h3]
          by_cases h4 : charAt doc pos = o
          · rw [if_pos h4]
            by_cases h5 : depth - 1 = 0
            · rw [if_pos h5]
              rfl
            · rw [if_neg h5]
              exact ih _ _ (by omega)
          · rw [if_neg h4]
            exact ih _ _ (by omega)
    · rw [if_neg h1]
      rfl

theorem findMatchingOpen_spec (doc : List Char) (p : Int) (c : Char) :
    findMatchingOpen doc p c = -1 ∨
      (0 ≤ findMatchingOpen doc p c ∧ findMatchingOpen doc p c ≤ p - 1) := by
  cases hg : getOpeningChar c with
  | none =>
    simp only [findMatchingOpen, hg]
    exact Or.inl trivial
  | some o =>
    simp only [findMatchingOpen, hg]
    by_cases he : o = c
    · rw [if_pos he]
      have hs := matchOpenQuoteGo_isSome doc o (p.toNat + 1) (p - 1)
        (by omega)
      rcases Option.isSome_iff_exists.mp hs with ⟨r, hr⟩
      rw [hr, Option.getD_some]
      rcases matchOpenQuoteGo_spec doc o _ _ _ hr with h | ⟨h1, h2, _⟩
      · exact Or.inl h
      · exact Or.inr ⟨h1, by omega⟩
    · rw [if_neg he]
      have hs := matchOpenBracketGo_isSome doc o c (p.toNat + 1) 1 (p - 1)
        (by omega)
      rcases Option.isSome_iff_exists.mp hs with ⟨r, hr⟩
      rw [hr, Option.getD_some]
      rcases matchOpenBracketGo_spec doc o c _ _ _ _ hr with h | ⟨h1, h2, _⟩
      · exact Or.inl h
      · exact Or.inr ⟨h1, by omega⟩

theorem findPrevClosingGo_spec (doc : List Char) :
    ∀ (fuel : Nat) (pos r : Int),
      findPrevClosingGo doc fuel pos = some r →
      r = -1 ∨
        (0 ≤ r ∧ r ≤ pos ∧ isClosingChar (charAt doc r) = true) := by
  intro fuel
  induction fuel with
  | zero =>
    intro pos r h
    simp [findPrevClosingGo] at h
  | succ n ih =>
    intro pos r h
    simp only [findPrevClosingGo] at h
    by_cases h1 : 0 ≤ pos
    · rw [if_pos h1] at h
      by_cases h2 : 0 < pos ∧ charAt doc (pos - 1) = bslash
      · rw [if_pos h2] at h
        rcases ih _ _ h with hr | ⟨hr1, hr2, hr3⟩
        · exact Or.inl hr
        · exact Or.inr ⟨hr1, by omega, hr3⟩
      · rw [if_neg h2] at h
        by_cases h3 : isClosingChar (charAt doc pos) = true
        · rw [if_pos h3] at h
          injection h with h'
          subst h'
          exact Or.inr ⟨h1, le_refl _, h3⟩
        · rw [if_neg h3] at h
          by_cases h4 : isOpeningChar (charAt doc pos) = true ∧
              0 ≤ findMatchingOpen doc pos (charAt doc pos)
          · rw [if_pos h4] at h
            rcases findMatchingOpen_spec doc pos (charAt doc pos) with
              hm | ⟨hm1, hm2⟩
            · omega
            · rcases ih _ _ h with hr | ⟨hr1, hr2, hr3⟩
              · exact Or.inl hr
              · exact Or.inr ⟨hr1, by omega, hr3⟩
          · rw [if_neg h4] at h
            rcases ih _ _ h with hr | ⟨hr1, hr2, hr3⟩
            · exact Or.inl hr
            · exact Or.inr ⟨hr1, by omega, hr3⟩
    · rw [if_neg h1] at h
      injection h with h'
      subst h'
      exact Or.inl rfl

theorem findPrevClosingGo_isSome (doc : List Char) :
    ∀ (fuel : Nat) (pos : Int), (pos + 1).toNat < fuel →
      (findPrevClosingGo doc fuel pos).isSome = true := by
  intro fuel
  induction fuel with
  | zero =>
    intro pos h
    omega
  | succ n ih =>
    intro pos h
    simp only [findPrevClosingGo]
    by_cases h1 : 0 ≤ pos
    · rw [if_pos h1]
      by_cases h2 : 0 < pos ∧ charAt doc (pos - 1) = bslash
      · rw [if_pos h2]
        exact ih _ (by omega)
      · rw [if_neg h2]
        by_cases h3 : isClosingChar (charAt doc pos) = true
        · rw [if_pos h3]
          rfl
        · rw [if_neg h3]
          by_cases h4 : isOpeningChar (charAt doc pos) = true ∧
              0 ≤ findMatchingOpen doc pos (charAt doc pos)
          · rw [if_pos h4]
            rcases findMatchingOpen_spec doc pos (charAt doc pos) with
              hm | ⟨hm1, hm2⟩
            · omega
            · exact ih _ (by omega)
          · rw [if_neg h4]
            exact ih _ (by omega)
    · rw [if_neg h1]
      rfl

theorem findPreviousClosingPosition_spec (doc : List Char) (s : Int) :
    findPreviousClosingPosition doc s = -1 ∨
      (0 ≤ findPreviousClosingPosition doc s ∧
        findPreviousClosingPosition doc s ≤ s - 1 ∧
        isClosingChar (charAt doc (findPreviousClosingPosition doc s)) =
          true) := by
  unfold findPreviousClosingPosition
  have hs := findPrevClosingGo_isSome doc (s.toNat + 1) (s - 1) (by omega)
  rcases Option.isSome_iff_exists.mp hs with ⟨r, hr⟩
  rw [hr, Option.getD_some]
  rcases findPrevClosingGo_spec doc _ _ _ hr with h | ⟨h1, h2, h3⟩
  · exact Or.inl h
  · exact Or.inr ⟨h1, by omega, h3⟩

/-! ## Wrapper-level helper lemmas -/

theorem charAt_nonneg (doc : List Char) (pos : Int) (h : 0 ≤ pos) :
    charAt doc pos = doc.getD pos.toNat nulChar := by
  unfold charAt
  rw [if_neg (by omega)]

/-- Landing one column past a non-newline character `c` is the same
linear offset as `c + 1`. -/
theorem offsetAt_next (doc : List Char) (c : Int) (h0 : 0 ≤ c)
    (h1 : c < docEnd doc) (h2 : isClosingChar (charAt doc c) = true) :
    offsetAt doc ⟨(positionAt doc c.toNat).line,
      (positionAt doc c.toNat).character + 1⟩ = c.toNat + 1 := by
  have hde : docEnd doc = (doc.length : Int) := rfl
  have hlen : c.toNat < doc.length := by omega
  have hchar : doc.getD c.toNat nulChar ≠ nlChar := by
    rw [← charAt_nonneg doc c h0]
    exact isClosingChar_ne_nl h2
  have hrt := offsetAux_posLineCol doc (c.toNat + 1) (by omega)
  rw [posLineCol_succ doc c.toNat hlen hchar] at hrt
  exact hrt

theorem exitSelectionFor_not_found (doc : List Char) (sel : Selection)
    (h : findNextClosingPosition doc (offsetAt doc sel.active : Int) < 0) :
    exitSelectionFor doc sel = sel := by
  simp only [exitSelectionFor]
  rw [if_pos h]

theorem exitSelectionFor_found (doc : List Char) (sel : Selection)
    (hge : 0 ≤ findNextClosingPosition doc (offsetAt doc sel.active : Int)) :
    ∃ p : Pos, exitSelectionFor doc sel = ⟨p, p⟩ ∧
      (offsetAt doc p : Int) =
        findNextClosingPosition doc (offsetAt doc sel.active : Int) + 1 := by
  rcases findNextClosingPosition_spec doc (offsetAt doc sel.active : Int)
    with hm | ⟨hm1, hm2, hm3⟩
  · exact absurd hge (by omega)
  · refine ⟨⟨(positionAt doc
        (findNextClosingPosition doc
          (offsetAt doc sel.active : Int)).toNat).line,
      (positionAt doc
        (findNextClosingPosition doc
          (offsetAt doc sel.active : Int)).toNat).character + 1⟩, ?_, ?_⟩
    · simp only [exitSelectionFor]
      rw [if_neg (by omega)]
    · have := offsetAt_next doc
        (findNextClosingPosition doc (offsetAt doc sel.active : Int)) hge
        hm2 hm3
      omega

theorem enterSelectionFor_not_found (doc : List Char) (sel : Selection)
    (h : findPreviousClosingPosition doc (offsetAt doc sel.active : Int) <
      0) :
    enterSelectionFor doc sel = sel := by
  simp only [enterSelectionFor]
  rw [if_pos h]

theorem enterSelectionFor_found (doc : List Char) (sel : Selection)
    (hge : 0 ≤ findPreviousClosingPosition doc
      (offsetAt doc sel.active : Int)) :
    ∃ p : Pos, enterSelectionFor doc sel = ⟨p, p⟩ ∧
      (offsetAt doc p : Int) =
        findPreviousClosingPosition doc (offsetAt doc sel.active : Int) := by
  rcases findPreviousClosingPosition_spec doc
    (offsetAt doc sel.active : Int) with hm | ⟨hm1, hm2, hm3⟩
  · exact absurd hge (by omega)
  · refine ⟨positionAt doc
      (findPreviousClosingPosition doc
        (offsetAt doc sel.active : Int)).toNat, ?_, ?_⟩
    · simp only [enterSelectionFor]
      rw [if_neg (by omega)]
    · have hle := offsetAt_le_length doc sel.active
      have hde : docEnd doc = (doc.length : Int) := rfl
      have := offsetAt_positionAt doc
        (findPreviousClosingPosition doc
          (offsetAt doc sel.active : Int)).toNat (by omega)
      omega

/-- A closing character sitting right at the start offset is returned
immediately by the forward scan. -/
theorem findNext_on_closing (doc : List Char) (off : Int)
    (h : isClosingChar (charAt doc off) = true) :
    findNextClosingPosition doc off = off := by
  rcases isClosingChar_charAt_bounds h with ⟨_, hlt⟩
  unfold findNextClosingPosition
  simp only [findNextClosingGo]
  rw [if_pos hlt]
  rw [if_neg (by
    intro hk
    exact isClosingChar_ne_bslash h hk.1)]
  rw [if_pos h, Option.getD_some]

/-- The backward matching-open lookup is dead for opening brackets: the
table is keyed by closing characters, so an opening character that is not
also a closing character yields the not-found sentinel. -/
theorem findMatchingOpen_of_opening (c : Char)
    (ho : isOpeningChar c = true) (hc : isClosingChar c = false)
    (doc : List Char) (p : Int) : findMatchingOpen doc p c = -1 := by
  rcases isOpeningChar_cases ho with rfl | rfl | rfl | rfl | rfl | rfl
  · have hg : getOpeningChar lparen = none := by decide
    simp only [findMatchingOpen, hg]
  · have hg : getOpeningChar lbrack = none := by decide
    simp only [findMatchingOpen, hg]
  · have hg : getOpeningChar lbrace = none := by decide
    simp only [findMatchingOpen, hg]
  · exact absurd hc (by decide)
  · exact absurd hc (by decide)
  · exact absurd hc (by decide)

/-- Forward partner search for a quote character: bounds plus the fact
that the match is that same quote character. -/
theorem findMatchingClose_quote_spec (doc : List Char) (p : Int) (q : Char)
    (hq : getClosingChar q = some q) :
    findMatchingClose doc p q = -1 ∨
      (p + 1 ≤ findMatchingClose doc p q ∧
        findMatchingClose doc p q < docEnd doc ∧
        charAt doc (findMatchingClose doc p q) = q) := by
  simp only [findMatchingClose, hq, if_true]
  have hs := matchCloseQuoteGo_isSome doc (docEnd doc) q
    ((docEnd doc - (p + 1)).toNat + 1) (p + 1) (by omega)
  rcases Option.isSome_iff_exists.mp hs with ⟨r, hr⟩
  rw [hr, Option.getD_some]
  rcases matchCloseQuoteGo_spec doc (docEnd doc) q _ _ _ hr with
    h | ⟨h1, h2, h3⟩
  · exact Or.inl h
  · exact Or.inr ⟨h1, h2, h3⟩

/-- Backward partner search for a quote character: bounds plus the fact
that the match is that same quote character. -/
theorem findMatchingOpen_quote_spec (doc : List Char) (p : Int) (q : Char)
    (hq : getOpeningChar q = some q) :
    findMatchingOpen doc p q = -1 ∨
      (0 ≤ findMatchingOpen doc p q ∧ findMatchingOpen doc p q ≤ p - 1 ∧
        charAt doc (findMatchingOpen doc p q) = q) := by
  simp only [findMatchingOpen, hq, if_true]
  have hs := matchOpenQuoteGo_isSome doc q (p.toNat + 1) (p - 1) (by omega)
  rcases Option.isSome_iff_exists.mp hs with ⟨r, hr⟩
  rw [hr, Option.getD_some]
  rcases matchOpenQuoteGo_spec doc q _ _ _ hr with h | ⟨h1, h2, h3⟩
  · exact Or.inl h
  · exact Or.inr ⟨h1, by omega, h3⟩

/-! ## Claim theorems -/

/-- C1: for every buffer and every selection list, `computeExitSelections`
and `computeEnterSelections` return exactly one output per input, and at
every index where the corresponding scan (forward for exit, backward for
enter) reports not-found (the negative sentinel), the output selection is
the input selection unchanged. -/
theorem claim_C1_totality_passthrough (doc : List Char)
    (sels : List Selection) :
    (computeExitSelections doc sels).length = sels.length ∧
    (computeEnterSelections doc sels).length = sels.length ∧
    ∀ (i : Nat) (sel : Selection), sels[i]? = some sel →
      (findNextClosingPosition doc (offsetAt doc sel.active : Int) < 0 →
        (computeExitSelections doc sels)[i]? = some sel) ∧
      (findPreviousClosingPosition doc (offsetAt doc sel.active : Int) <
          0 →
        (computeEnterSelections doc sels)[i]? = some sel) := by
  refine ⟨by simp [computeExitSelections],
    by simp [computeEnterSelections], ?_⟩
  intro i sel hi
  constructor
  · intro hneg
    simp only [computeExitSelections, List.getElem?_map, hi,
      Option.map_some']
    rw [exitSelectionFor_not_found doc sel hneg]
  · intro hneg
    simp only [computeEnterSelections, List.getElem?_map, hi,
      Option.map_some']
    rw [enterSelectionFor_not_found doc sel hneg]

/-- Witness for C1 at the text `hello world`, cursor (0,5): both scans
report not-found and the selection passes through unchanged. -/
theorem claim_C1_witness :
    (computeExitSelections helloWorldDoc [⟨⟨0, 5⟩, ⟨0, 5⟩⟩])[0]? =
      some ⟨⟨0, 5⟩, ⟨0, 5⟩⟩ ∧
    (computeEnterSelections helloWorldDoc [⟨⟨0, 5⟩, ⟨0, 5⟩⟩])[0]? =
      some ⟨⟨0, 5⟩, ⟨0, 5⟩⟩ := by
  have h := (claim_C1_totality_passthrough helloWorldDoc
    [⟨⟨0, 5⟩, ⟨0, 5⟩⟩]).2.2 0 ⟨⟨0, 5⟩, ⟨0, 5⟩⟩ rfl
  exact ⟨h.1 (by decide), h.2 (by decide)⟩

/-- C2: when the forward scan from a cursor's offset finds its first
unmatched closing delimiter at offset `c ≥ 0`, `computeExitSelections`
places that cursor immediately after it — the output selection at the
same index is collapsed at the position of linear offset `c + 1`. -/
theorem claim_C2_exit_after_boundary (doc : List Char)
    (sels : List Selection) (i : Nat) (sel : Selection)
    (hi : sels[i]? = some sel)
    (hge : 0 ≤ findNextClosingPosition doc
      (offsetAt doc sel.active : Int)) :
    ∃ p : Pos, (computeExitSelections doc sels)[i]? = some ⟨p, p⟩ ∧
      (offsetAt doc p : Int) =
        findNextClosingPosition doc (offsetAt doc sel.active : Int) +
          1 := by
  rcases exitSelectionFor_found doc sel hge with ⟨p, hp1, hp2⟩
  refine ⟨p, ?_, hp2⟩
  simp only [computeExitSelections, List.getElem?_map, hi,
    Option.map_some']
  rw [hp1]

/-- Witness for C2: the spec's example `foo(hello)` with the cursor at
offset 8; the scan finds the `)` at offset 9 and the resulting cursor is
at offset 10. -/
theorem claim_C2_witness :
    0 ≤ findNextClosingPosition fooHelloDoc
      ((offsetAt fooHelloDoc ⟨0, 8⟩ : Nat) : Int) ∧
    ∃ p : Pos,
      (computeExitSelections fooHelloDoc [⟨⟨0, 8⟩, ⟨0, 8⟩⟩])[0]? =
        some ⟨p, p⟩ ∧
      (offsetAt fooHelloDoc p : Int) = 10 := by
  refine ⟨by decide, ?_⟩
  rcases claim_C2_exit_after_boundary fooHelloDoc [⟨⟨0, 8⟩, ⟨0, 8⟩⟩] 0
    ⟨⟨0, 8⟩, ⟨0, 8⟩⟩ rfl (by decide) with ⟨p, h1, h2⟩
  refine ⟨p, h1, ?_⟩
  rw [h2]
  decide

/-- C3: when the backward scan (which starts at the character strictly
before the cursor's offset) finds a closing delimiter at offset `c ≥ 0`,
`computeEnterSelections` places the cursor exactly at offset `c`, not
past it. -/
theorem claim_C3_enter_at_boundary (doc : List Char)
    (sels : List Selection) (i : Nat) (sel : Selection)
    (hi : sels[i]? = some sel)
    (hge : 0 ≤ findPreviousClosingPosition doc
      (offsetAt doc sel.active : Int)) :
    ∃ p : Pos, (computeEnterSelections doc sels)[i]? = some ⟨p, p⟩ ∧
      (offsetAt doc p : Int) =
        findPreviousClosingPosition doc
          (offsetAt doc sel.active : Int) := by
  rcases enterSelectionFor_found doc sel hge with ⟨p, hp1, hp2⟩
  refine ⟨p, ?_, hp2⟩
  simp only [computeEnterSelections, List.getElem?_map, hi,
    Option.map_some']
  rw [hp1]

/-- Witness for C3: text `foo(hello)` with the cursor at offset 10 (just
past the `)`); the backward scan finds the `)` at offset 9 and the
resulting cursor is exactly at offset 9. -/
theorem claim_C3_witness :
    0 ≤ findPreviousClosingPosition fooHelloDoc
      ((offsetAt fooHelloDoc ⟨0, 10⟩ : Nat) : Int) ∧
    ∃ p : Pos,
      (computeEnterSelections fooHelloDoc [⟨⟨0, 10⟩, ⟨0, 10⟩⟩])[0]? =
        some ⟨p, p⟩ ∧
      (offsetAt fooHelloDoc p : Int) = 9 := by
  refine ⟨by decide, ?_⟩
  rcases claim_C3_enter_at_boundary fooHelloDoc [⟨⟨0, 10⟩, ⟨0, 10⟩⟩] 0
    ⟨⟨0, 10⟩, ⟨0, 10⟩⟩ rfl (by decide) with ⟨p, h1, h2⟩
  refine ⟨p, h1, ?_⟩
  rw [h2]
  decide

/-- C4: bracket matching uses a depth counter — on an unescaped
occurrence of the opening character the counter increments and the scan
advances, on an unescaped occurrence of the partner closing character it
decrements, the match being the position where the depth reaches 0
(`depth - 1 = 0` at a decrement from the code's running value); the
outer forward scan resumes one position past the located match; and on
the spec's example `foo(bar[baz])` with the cursor at offset 10 the exit
lands at offset 12, not past the outer `)`. -/
theorem claim_C4_depth_matching :
    (∀ (doc : List Char) (dEnd : Int) (o cl : Char) (fuel : Nat)
        (depth pos : Int), charAt doc pos = o → o ≠ bslash →
        pos < dEnd →
        matchCloseBracketGo doc dEnd o cl (fuel + 1) depth pos =
          matchCloseBracketGo doc dEnd o cl fuel (depth + 1) (pos + 1)) ∧
    (∀ (doc : List Char) (dEnd : Int) (o cl : Char) (fuel : Nat)
        (depth pos : Int), charAt doc pos = cl → cl ≠ bslash → cl ≠ o →
        pos < dEnd →
        matchCloseBracketGo doc dEnd o cl (fuel + 1) depth pos =
          if depth - 1 = 0 then some pos
          else matchCloseBracketGo doc dEnd o cl fuel (depth - 1)
            (pos + 1)) ∧
    (∀ (doc : List Char) (fuel : Nat) (pos : Int), pos < docEnd doc →
        charAt doc pos ≠ bslash →
        isClosingChar (charAt doc pos) = false →
        isOpeningChar (charAt doc pos) = true →
        0 ≤ findMatchingClose doc pos (charAt doc pos) →
        findNextClosingGo doc (docEnd doc) (fuel + 1) pos =
          findNextClosingGo doc (docEnd doc) fuel
            (findMatchingClose doc pos (charAt doc pos) + 1)) ∧
    computeExitSelections fooBarBazDoc [⟨⟨0, 10⟩, ⟨0, 10⟩⟩] =
      [⟨⟨0, 12⟩, ⟨0, 12⟩⟩] := by
  refine ⟨?_, ?_, ?_, by decide⟩
  · intro doc dEnd o cl fuel depth pos hco ho hlt
    simp only [matchCloseBracketGo]
    rw [if_pos hlt]
    rw [if_neg (by
      intro hk
      rw [hco] at hk
      exact ho hk.1)]
    rw [if_pos hco]
  · intro doc dEnd o cl fuel depth pos hcc hcb hco hlt
    simp only [matchCloseBracketGo]
    rw [if_pos hlt]
    rw [if_neg (by
      intro hk
      rw [hcc] at hk
      exact hcb hk.1)]
    rw [if_neg (by
      intro hk
      rw [hcc] at hk
      exact hco hk)]
    rw [if_pos hcc]
  · intro doc fuel pos hlt hnb hncl hop hm
    simp only [findNextClosingGo]
    rw [if_pos hlt]
    rw [if_neg (by
      intro hk
      exact hnb hk.1)]
    rw [if_neg (by
      rw [hncl]
      decide)]
    rw [if_pos ⟨hop, hm⟩]

/-- Witness for C4: concrete instances on `foo(bar[baz])` — the depth
counter increments at the `(` at offset 3, the decrement at the `)` at
offset 12 is the match when the depth is 1, and the outer scan at the
`[` at offset 7 resumes at offset 12 (one past its matching `]` at
offset 11). -/
theorem claim_C4_witness :
    matchCloseBracketGo fooBarBazDoc (docEnd fooBarBazDoc) lparen rparen
      9 1 3 =
      matchCloseBracketGo fooBarBazDoc (docEnd fooBarBazDoc) lparen
        rparen 8 2 4 ∧
    matchCloseBracketGo fooBarBazDoc (docEnd fooBarBazDoc) lparen rparen
      4 1 12 =
      (if (1 : Int) - 1 = 0 then some 12
       else matchCloseBracketGo fooBarBazDoc (docEnd fooBarBazDoc)
         lparen rparen 3 0 13) ∧
    findNextClosingGo fooBarBazDoc (docEnd fooBarBazDoc) 6 7 =
      findNextClosingGo fooBarBazDoc (docEnd fooBarBazDoc) 5
        (findMatchingClose fooBarBazDoc 7 (charAt fooBarBazDoc 7) + 1) := by
  refine ⟨?_, ?_, ?_⟩
  · exact claim_C4_depth_matching.1 fooBarBazDoc (docEnd fooBarBazDoc)
      lparen rparen 8 1 3 (by decide) (by decide) (by decide)
  · exact claim_C4_depth_matching.2.1 fooBarBazDoc (docEnd fooBarBazDoc)
      lparen rparen 3 1 12 (by decide) (by decide) (by decide) (by decide)
  · exact claim_C4_depth_matching.2.2.1 fooBarBazDoc 5 7 (by decide)
      (by decide) (by decide) (by decide) (by decide)

/-- C5: quote delimiters (double quote, single quote, backtick) open and
close with the same character and are matched without a depth counter:
the partner search returns the first unescaped occurrence of that same
character strictly after (forward) or strictly before (backward) the
starting position, and reports not-found when no such occurrence exists;
on `"a"b"` the forward match from the quote at offset 0 is the quote at
offset 2 (not the last quote), and the backward match from the quote at
offset 4 is the quote at offset 2 (not the first). -/
theorem claim_C5_quotes_no_depth (q : Char)
    (hq : q = dquote ∨ q = squote ∨ q = bquote) :
    (getClosingChar q = some q ∧ getOpeningChar q = some q) ∧
    (∀ (doc : List Char) (p : Int),
      0 ≤ findMatchingClose doc p q →
      p < findMatchingClose doc p q ∧
      findMatchingClose doc p q < docEnd doc ∧
      charAt doc (findMatchingClose doc p q) = q) ∧
    (∀ (doc : List Char) (p : Int),
      0 ≤ findMatchingOpen doc p q →
      findMatchingOpen doc p q < p ∧
      charAt doc (findMatchingOpen doc p q) = q) ∧
    (∀ (doc : List Char) (p : Int),
      (∀ s : Int, p < s → s < docEnd doc → charAt doc s ≠ q) →
      findMatchingClose doc p q = -1) ∧
    (∀ (doc : List Char) (p : Int),
      (∀ s : Int, s < p → 0 ≤ s → charAt doc s ≠ q) →
      findMatchingOpen doc p q = -1) ∧
    findMatchingClose quoteNestDoc 0 dquote = 2 ∧
    findMatchingOpen quoteNestDoc 4 dquote = 2 := by
  have hgc : getClosingChar q = some q := by
    rcases hq with rfl | rfl | rfl <;> decide
  have hgo : getOpeningChar q = some q := by
    rcases hq with rfl | rfl | rfl <;> decide
  refine ⟨⟨hgc, hgo⟩, ?_, ?_, ?_, ?_, by decide, by decide⟩
  · intro doc p hp
    rcases findMatchingClose_quote_spec doc p q hgc with h | ⟨h1, h2, h3⟩
    · exact absurd hp (by omega)
    · exact ⟨by omega, h2, h3⟩
  · intro doc p hp
    rcases findMatchingOpen_quote_spec doc p q hgo with h | ⟨h1, h2, h3⟩
    · exact absurd hp (by omega)
    · exact ⟨by omega, h3⟩
  · intro doc p hnone
    rcases findMatchingClose_quote_spec doc p q hgc with h | ⟨h1, h2, h3⟩
    · exact h
    · exact absurd h3 (hnone _ (by omega) h2)
  · intro doc p hnone
    rcases findMatchingOpen_quote_spec doc p q hgo with h | ⟨h1, h2, h3⟩
    · exact h
    · exact absurd h3 (hnone _ (by omega) h1)

/-- Witness for C5 at the double quote: the quote matches its own
closing character, and on `"a"b"` the forward match from offset 0 is at
offset 2 with that character being a double quote. -/
theorem claim_C5_witness :
    (getClosingChar dquote = some dquote ∧
      getOpeningChar dquote = some dquote) ∧
    ((0 : Int) < findMatchingClose quoteNestDoc 0 dquote ∧
      findMatchingClose quoteNestDoc 0 dquote < docEnd quoteNestDoc ∧
      charAt quoteNestDoc (findMatchingClose quoteNestDoc 0 dquote) =
        dquote) ∧
    (findMatchingOpen quoteNestDoc 4 dquote < 4 ∧
      charAt quoteNestDoc (findMatchingOpen quoteNestDoc 4 dquote) =
        dquote) := by
  have h := claim_C5_quotes_no_depth dquote (Or.inl rfl)
  exact ⟨h.1, h.2.1 quoteNestDoc 0 (by decide),
    h.2.2.1 quoteNestDoc 4 (by decide)⟩

/-- C6: escaped delimiters never count — the forward scan, on reading a
backslash that is not at the last position, advances two positions
before any delimiter classification, and the backward scan skips two
positions backward past a candidate whose immediate predecessor is a
backslash; on the example `str"hel\"lo"` with the cursor at offset 5 the
exit lands at offset 12 (the escaped quote at offset 8 is skipped). -/
theorem claim_C6_escape_skip :
    (∀ (doc : List Char) (fuel : Nat) (pos : Int), pos < docEnd doc →
      charAt doc pos = bslash → pos + 1 < docEnd doc →
      findNextClosingGo doc (docEnd doc) (fuel + 1) pos =
        findNextClosingGo doc (docEnd doc) fuel (pos + 2)) ∧
    (∀ (doc : List Char) (fuel : Nat) (pos : Int), 0 ≤ pos → 0 < pos →
      charAt doc (pos - 1) = bslash →
      findPrevClosingGo doc (fuel + 1) pos =
        findPrevClosingGo doc fuel (pos - 2)) ∧
    computeExitSelections strHelLoDoc [⟨⟨0, 5⟩, ⟨0, 5⟩⟩] =
      [⟨⟨0, 12⟩, ⟨0, 12⟩⟩] := by
  refine ⟨?_, ?_, by decide⟩
  · intro doc fuel pos hlt hb hlt1
    simp only [findNextClosingGo]
    rw [if_pos hlt, if_pos ⟨hb, hlt1⟩]
  · intro doc fuel pos h0 hpos hb
    simp only [findPrevClosingGo]
    rw [if_pos h0, if_pos ⟨hpos, hb⟩]

/-- Witness for C6: on `str"hel\"lo"` the forward scan at the backslash
at offset 7 jumps to offset 9, and on the backslash-backslash-quote text
the backward scan at offset 2 (whose predecessor is a backslash) jumps
to offset 0. -/
theorem claim_C6_witness :
    findNextClosingGo strHelLoDoc (docEnd strHelLoDoc) 6 7 =
      findNextClosingGo strHelLoDoc (docEnd strHelLoDoc) 5 9 ∧
    findPrevClosingGo bbqDoc 4 2 = findPrevClosingGo bbqDoc 3 0 := by
  constructor
  · exact claim_C6_escape_skip.1 strHelLoDoc 5 7 (by decide) (by decide)
      (by decide)
  · exact claim_C6_escape_skip.2.1 bbqDoc 3 2 (by decide) (by decide)
      (by decide)

/-- C7 counterexample: on the text `{(a)b}` with the cursor at offset 5,
the nested pair `(a)` (offsets 1 to 3, nested inside the braces) lies on
the backward scan's way.  Were it skipped by locating its matching
opener and continuing from just before that opener (as the claim
states), the scan would pass offset 0 without finding any closing
delimiter and the cursor would be returned unchanged at (0,5).  Instead
`computeEnterSelections` stops at the nested pair's own `)` and moves
the cursor to offset 3 — the nested pair is entered, not skipped. -/
theorem claim_C7_counterexample :
    computeEnterSelections nestedPairDoc [⟨⟨0, 5⟩, ⟨0, 5⟩⟩] =
      [⟨⟨0, 3⟩, ⟨0, 3⟩⟩] ∧
    computeEnterSelections nestedPairDoc [⟨⟨0, 5⟩, ⟨0, 5⟩⟩] ≠
      [⟨⟨0, 5⟩, ⟨0, 5⟩⟩] ∧
    findPreviousClosingPosition nestedPairDoc 5 = 3 ∧
    charAt nestedPairDoc 3 = rparen := by
  decide

/-- C7 amended: the backward scan of `computeEnterSelections` never
skips a nested pair via its matching opener.  An unescaped closing
delimiter terminates the scan immediately (whatever the scan returns is
a closing character), and when an unescaped opening bracket is reached,
the matching-opener lookup always yields the not-found sentinel (the
opener table is keyed by closing characters), so the scan merely steps
back one position; on `{(a)b}` with the cursor at offset 5 the scan
enters the nested pair `(a)` at its `)`. -/
theorem claim_C7_amended :
    (∀ (c : Char), isOpeningChar c = true → isClosingChar c = false →
      ∀ (doc : List Char) (p : Int), findMatchingOpen doc p c = -1) ∧
    (∀ (doc : List Char) (fuel : Nat) (pos : Int), 0 ≤ pos →
      ¬(0 < pos ∧ charAt doc (pos - 1) = bslash) →
      isClosingChar (charAt doc pos) = false →
      isOpeningChar (charAt doc pos) = true →
      findPrevClosingGo doc (fuel + 1) pos =
        findPrevClosingGo doc fuel (pos - 1)) ∧
    (∀ (doc : List Char) (s : Int),
      0 ≤ findPreviousClosingPosition doc s →
      isClosingChar (charAt doc (findPreviousClosingPosition doc s)) =
        true) ∧
    computeEnterSelections nestedPairDoc [⟨⟨0, 5⟩, ⟨0, 5⟩⟩] =
      [⟨⟨0, 3⟩, ⟨0, 3⟩⟩] := by
  refine ⟨findMatchingOpen_of_opening, ?_, ?_, by decide⟩
  · intro doc fuel pos h0 hne hncl hop
    simp only [findPrevClosingGo]
    rw [if_pos h0, if_neg hne]
    rw [if_neg (by
      rw [hncl]
      decide)]
    rw [if_neg (by
      intro hk
      rw [findMatchingOpen_of_opening (charAt doc pos) hop hncl doc pos]
        at hk
      omega)]
  · intro doc s hge
    rcases findPreviousClosingPosition_spec doc s with h | ⟨h1, h2, h3⟩
    · exact absurd hge (by omega)
    · exact h3

/-- Witness for C7's amended statement: the opener lookup at the `(` of
`{(a)b}` yields the sentinel, the backward scan at the `(` of the text
`(ab` merely steps back one position, and the scan result on `{(a)b}`
from offset 5 is a closing character. -/
theorem claim_C7_witness :
    findMatchingOpen nestedPairDoc 3 lparen = -1 ∧
    findPrevClosingGo [lparen, 'a', 'b'] 4 0 =
      findPrevClosingGo [lparen, 'a', 'b'] 3 (-1) ∧
    isClosingChar (charAt nestedPairDoc
      (findPreviousClosingPosition nestedPairDoc 5)) = true := by
  refine ⟨?_, ?_, ?_⟩
  · exact claim_C7_amended.1 lparen (by decide) (by decide)
      nestedPairDoc 3
  · exact claim_C7_amended.2.1 [lparen, 'a', 'b'] 3 0 (by decide)
      (by decide) (by decide) (by decide)
  · exact claim_C7_amended.2.2.1 nestedPairDoc 5 (by decide)

/-- C8: a cursor sitting exactly on a delimiter is treated as inside the
pair.  The forward exit scan starts at the cursor's exact offset
(inclusive): on a closing delimiter at offset `c` the scan returns `c`
itself and the exit lands at offset `c + 1`.  The backward enter scan
starts strictly before the cursor's offset: any found result is at an
offset strictly below the cursor's. -/
theorem claim_C8_on_delimiter (doc : List Char) :
    (∀ (off : Int), isClosingChar (charAt doc off) = true →
      findNextClosingPosition doc off = off) ∧
    (∀ (sels : List Selection) (i : Nat) (sel : Selection),
      sels[i]? = some sel →
      isClosingChar (charAt doc (offsetAt doc sel.active : Int)) = true →
      ∃ p : Pos, (computeExitSelections doc sels)[i]? = some ⟨p, p⟩ ∧
        offsetAt doc p = offsetAt doc sel.active + 1) ∧
    (∀ (s : Int), 0 ≤ findPreviousClosingPosition doc s →
      findPreviousClosingPosition doc s < s) := by
  refine ⟨?_, ?_, ?_⟩
  · intro off hcl
    exact findNext_on_closing doc off hcl
  · intro sels i sel hi hcl
    have hfe := findNext_on_closing doc (offsetAt doc sel.active : Int)
      hcl
    have hge : 0 ≤ findNextClosingPosition doc
        (offsetAt doc sel.active : Int) := by
      rw [hfe]
      omega
    rcases exitSelectionFor_found doc sel hge with ⟨p, h1, h2⟩
    rw [hfe] at h2
    refine ⟨p, ?_, by omega⟩
    simp only [computeExitSelections, List.getElem?_map, hi,
      Option.map_some']
    rw [h1]
  · intro s hge
    rcases findPreviousClosingPosition_spec doc s with h | ⟨h1, h2, h3⟩
    · exact absurd hge (by omega)
    · omega

/-- Witness for C8 on `foo(hello)`: the cursor directly on the `)` at
offset 9 exits to offset 10, and the backward scan from offset 10 stays
strictly below 10. -/
theorem claim_C8_witness :
    findNextClosingPosition fooHelloDoc 9 = 9 ∧
    (∃ p : Pos,
      (computeExitSelections fooHelloDoc [⟨⟨0, 9⟩, ⟨0, 9⟩⟩])[0]? =
        some ⟨p, p⟩ ∧
      offsetAt fooHelloDoc p =
        offsetAt fooHelloDoc (⟨⟨0, 9⟩, ⟨0, 9⟩⟩ : Selection).active + 1) ∧
    findPreviousClosingPosition fooHelloDoc 10 < 10 := by
  refine ⟨?_, ?_, ?_⟩
  · exact (claim_C8_on_delimiter fooHelloDoc).1 9 (by decide)
  · exact (claim_C8_on_delimiter fooHelloDoc).2.1
      [⟨⟨0, 9⟩, ⟨0, 9⟩⟩] 0 ⟨⟨0, 9⟩, ⟨0, 9⟩⟩ rfl (by decide)
  · exact (claim_C8_on_delimiter fooHelloDoc).2.2 10 (by decide)

/-- C9: every scanning loop terminates within a fuel bound tied to the
buffer: with fuel one more than the remaining distance to the scan
boundary (the buffer end going forward, offset 0 going backward) no loop
runs out of fuel, for every buffer and every starting state — so
`computeExitSelections` and `computeEnterSelections`, whose wrappers
supply exactly these bounds, terminate on every finite buffer and every
cursor list. -/
theorem claim_C9_termination :
    (∀ (doc : List Char) (s : Int),
      (findNextClosingGo doc (docEnd doc) ((docEnd doc - s).toNat + 1)
        s).isSome = true) ∧
    (∀ (doc : List Char) (s : Int),
      (findPrevClosingGo doc (s.toNat + 1) (s - 1)).isSome = true) ∧
    (∀ (doc : List Char) (dEnd : Int) (q : Char) (pos : Int),
      (matchCloseQuoteGo doc dEnd q ((dEnd - pos).toNat + 1)
        pos).isSome = true) ∧
    (∀ (doc : List Char) (dEnd : Int) (o cl : Char) (depth pos : Int),
      (matchCloseBracketGo doc dEnd o cl ((dEnd - pos).toNat + 1) depth
        pos).isSome = true) ∧
    (∀ (doc : List Char) (q : Char) (pos : Int),
      (matchOpenQuoteGo doc q ((pos + 1).toNat + 1) pos).isSome =
        true) ∧
    (∀ (doc : List Char) (o cl : Char) (depth pos : Int),
      (matchOpenBracketGo doc o cl ((pos + 1).toNat + 1) depth
        pos).isSome = true) := by
  refine ⟨?_, ?_, ?_, ?_, ?_, ?_⟩
  · intro doc s
    exact findNextClosingGo_isSome doc _ s (by omega)
  · intro doc s
    exact findPrevClosingGo_isSome doc _ (s - 1) (by omega)
  · intro doc dEnd q pos
    exact matchCloseQuoteGo_isSome doc dEnd q _ pos (by omega)
  · intro doc dEnd o cl depth pos
    exact matchCloseBracketGo_isSome doc dEnd o cl _ depth pos (by omega)
  · intro doc q pos
    exact matchOpenQuoteGo_isSome doc q _ pos (by omega)
  · intro doc o cl depth pos
    exact matchOpenBracketGo_isSome doc o cl _ depth pos (by omega)

/-- C10: on the three-character buffer backslash, backslash, double
quote, the forward scan consumes the two backslashes as one escape
sequence and matches the quote at offset 2, so `computeExitSelections`
from offset 0 moves the cursor to offset 3; the backward scan sees a
backslash immediately before the quote, classifies the quote as escaped
(without checking whether that backslash is itself escaped) and finds
nothing, so `computeEnterSelections` from offset 3 returns the cursor
unchanged — the two directions disagree about this quote. -/
theorem claim_C10_escape_asymmetry :
    computeExitSelections bbqDoc [⟨⟨0, 0⟩, ⟨0, 0⟩⟩] =
      [⟨⟨0, 3⟩, ⟨0, 3⟩⟩] ∧
    findNextClosingPosition bbqDoc 0 = 2 ∧
    computeEnterSelections bbqDoc [⟨⟨0, 3⟩, ⟨0, 3⟩⟩] =
      [⟨⟨0, 3⟩, ⟨0, 3⟩⟩] ∧
    findPreviousClosingPosition bbqDoc 3 = -1 := by
  decide
